import Mathlib

/-!
Shallow embedding of the core algorithms of `moabb/datasets/castillos2023.py`:
the codebook parser (`code2array` / `__code2array`), the frame windower
(`__to_window_by_frame`) and the onset realigner (`__onset_anno`).

Numeric values are modelled as rationals (`ℚ`) and integers (`ℤ`); Python
strings are lists of characters; fallible operations (list indexing,
dictionary lookup, `int()` parsing, numpy broadcast assignment, assertion
failure) return `Option`, with `none` standing for a raised exception.
-/

namespace Castillos2023

/-- Python list/array indexing `xs[i]`: a negative index counts from the end,
an index out of range raises (here: `none`). -/
def pyIdx (xs : List ℚ) (i : ℤ) : Option ℚ :=
  let j : ℤ := if i < 0 then (xs.length : ℤ) + i else i
  if 0 ≤ j then xs.get? j.toNat else none

/-- Floor of a rational, computed on the numerator and (positive)
denominator so that the kernel can evaluate it. -/
def floorQ (q : ℚ) : ℤ :=
  q.num / (q.den : ℤ)

/-- Ceiling of a rational (`⌈q⌉ = -⌊-q⌋`), kernel-computable. -/
def ceilQ (q : ℚ) : ℤ :=
  -((-q.num) / (q.den : ℤ))

/-- Python `int()` applied to a (rational-valued) float: truncation toward
zero. -/
def truncQ (q : ℚ) : ℤ :=
  if 0 ≤ q then floorQ q else ceilQ q

/-- Monadic map over `Option`, failing as soon as one element fails
(the semantics of `list(map(f, xs))` when `f` can raise). -/
def mapOption (f : α → Option β) : List α → Option (List β)
  | [] => some []
  | x :: xs =>
    match f x with
    | none => none
    | some y =>
      match mapOption f xs with
      | none => none
      | some ys => some (y :: ys)

/-! ### Codebook Parser: `code2array` (module level) / `__code2array` (method)

Source:
```
def code2array(event_id):
    codes = OrderedDict()
    for k, v in event_id.items():
        code = k.split('_')[0]
        code = code.replace('.','').replace('2','')
        codes[v-1] = np.array(list(map(int, code)))
    return codes
```
-/

/-- Python `int(c)` on a one-character string: the digit value for an ASCII
decimal digit, a `ValueError` (here `none`) otherwise. -/
def pyInt (c : Char) : Option ℤ :=
  if '0' ≤ c ∧ c ≤ '9' then some ((c.toNat : ℤ) - ('0'.toNat : ℤ)) else none

/-- `k.split('_')[0]`: the prefix of the character list up to (excluding)
the first underscore. -/
def splitFirst : List Char → List Char
  | [] => []
  | c :: cs => if c = '_' then [] else c :: splitFirst cs

/-- `code.replace('.','').replace('2','')` applied to the part before the
first underscore. -/
def cleanCode (k : List Char) : List Char :=
  (splitFirst k).filter (fun c => decide (c ≠ '.' ∧ c ≠ '2'))

/-- `list(map(int, code))` over the cleaned code characters. -/
def parseCode (k : List Char) : Option (List ℤ) :=
  mapOption pyInt (cleanCode k)

/-- Insertion into an ordered dictionary: overwriting an existing key keeps
its position, a new key is appended at the end. -/
def odInsert (m : List (ℤ × List ℤ)) (key : ℤ) (v : List ℤ) : List (ℤ × List ℤ) :=
  if (m.map Prod.fst).contains key then
    m.map (fun p => if p.1 = key then (key, v) else p)
  else m ++ [(key, v)]

/-- The loop of `code2array`, threading the ordered dictionary. -/
def code2arrayAux (m : List (ℤ × List ℤ)) : List (List Char × ℤ) → Option (List (ℤ × List ℤ))
  | [] => some m
  | (k, v) :: rest =>
    match parseCode k with
    | none => none
    | some code => code2arrayAux (odInsert m (v - 1) code) rest

/-- `code2array(event_id)`: ordered dictionary from `v - 1` to the parsed
binary code of the label `k`, for each `(k, v)` in `event_id`. -/
def code2array (event_id : List (List Char × ℤ)) : Option (List (ℤ × List ℤ)) :=
  code2arrayAux [] event_id

/-! ### Frame Windower: `__to_window_by_frame`

Source (with `self.window_size`, `self.fps`, `self.n_channels` as dataset
parameters):
```
length = int((2.2-self.window_size)*self.fps)
X = np.empty(shape=((length)*data.shape[0], self.n_channels, n_samples_windows))
Y = np.empty(shape=((length)*data.shape[0]), dtype=int)
idx_taken = []
for trial_nb, trial in enumerate(data):
    lab = labels[trial_nb]
    c = codes[lab]
    labels_upsampled = np.repeat(c, self.fps//self.fps)
    labels_upsampled = np.concatenate((np.zeros(int(offset*self.fps), dtype=int),
                                       np.array(labels_upsampled)))
    if (focus_rising is not None):
        hi_indices = []
        for idx in range(1, len(labels_upsampled)):
            if ... (labels_upsampled[idx-1] == 0) and (labels_upsampled[idx] == 1):
                hi_indices.append(idx)
        focused_labels = np.zeros(length)
        for idx in hi_indices:
            focused_labels[idx:idx+4] = 1
    else:
        focused_labels = labels_upsampled.copy()
    for idx in range(length):
        X[trial_nb*length+idx] = trial[:, idx:idx+n_samples_windows]
        Y[trial_nb*length+idx] = focused_labels[idx]
        idx_taken.append(trial_nb*length+idx)
```
A trial is a channels × samples matrix (`List (List ℚ)`).
-/

/-- `length = int((2.2 - window_size) * fps)`: frames per trial. -/
def lengthFrames (window_size : ℚ) (fps : ℕ) : ℕ :=
  (truncQ ((22/10 - window_size) * fps)).toNat

/-- One channel of `trial[:, idx : idx + n]`: a Python slice, clipped at the
end of the list. -/
def sliceChan (chan : List ℚ) (idx n : ℕ) : List ℚ :=
  (chan.drop idx).take n

/-- `trial[:, idx : idx + n]`. -/
def windowSlice (trial : List (List ℚ)) (idx n : ℕ) : List (List ℚ) :=
  trial.map (fun ch => sliceChan ch idx n)

/-- Numpy broadcast of one row into a length-`n` slot: the row is kept when
it already has length `n`, stretched when it has length 1, rejected
otherwise. -/
def broadcastRow (row : List ℚ) (n : ℕ) : Option (List ℚ) :=
  if row.length = n then some row
  else if row.length = 1 then some (List.replicate n row.headI)
  else none

/-- The numpy assignment `X[pos] = mat` into a preallocated
`nch × n` slot: every row is broadcast to width `n` and the row count must
broadcast to `nch`, otherwise a `ValueError` is raised (`none`). -/
def assignWindow (mat : List (List ℚ)) (nch n : ℕ) : Option (List (List ℚ)) :=
  match mapOption (fun r => broadcastRow r n) mat with
  | none => none
  | some rows =>
    if rows.length = nch then some rows
    else if rows.length = 1 then some (List.replicate nch rows.headI)
    else none

/-- The rising-edge scan: indices `idx ∈ [1, len)` of the padded label
sequence with `labels_upsampled[idx-1] == 0` and `labels_upsampled[idx] == 1`. -/
def hiIndices (padded : List ℤ) : List ℕ :=
  (List.range padded.length).filter
    (fun idx => decide (0 < idx ∧ padded.get? (idx - 1) = some 0 ∧ padded.get? idx = some 1))

/-- `focused_labels[idx : idx+4] = 1`: four single-cell writes, each a no-op
past the end of the array (numpy slice-assignment clipping). -/
def sliceMark (xs : List ℤ) (idx : ℕ) : List ℤ :=
  ((((xs.set idx 1).set (idx + 1) 1).set (idx + 2) 1).set (idx + 3) 1)

/-- The rising-edge-focus label array: an all-zero array of size `length`
with `focused_labels[idx : idx+4] = 1` written for each rising-edge index. -/
def focusedOf (padded : List ℤ) (length : ℕ) : List ℤ :=
  (hiIndices padded).foldl sliceMark (List.replicate length 0)

/-- `np.repeat(c, fps // fps)`. -/
def upsampleCode (c : List ℤ) (fps : ℕ) : List ℤ :=
  (c.map (fun b => List.replicate (fps / fps) b)).flatten

/-- The inner `for idx in range(length)` loop of one trial: per frame, the
window assignment (which may raise a broadcast error), the label read
`focused_labels[idx]` (which may raise an index error) and the flat index
`trial_nb*length + idx`. -/
def windowInner (trial : List (List ℚ)) (focused : List ℤ) (nch n tbase : ℕ) :
    List ℕ → Option (List (List (List ℚ)) × List ℤ × List ℕ)
  | [] => some ([], [], [])
  | idx :: rest =>
    match assignWindow (windowSlice trial idx n) nch n with
    | none => none
    | some w =>
      match focused.get? idx with
      | none => none
      | some y =>
        match windowInner trial focused nch n tbase rest with
        | none => none
        | some (a, b, c) => some (w :: a, y :: b, (tbase + idx) :: c)

/-- The body of the outer loop for one trial: code lookup, up-sampling,
zero-padding, optional rising-edge focus, then the inner frame loop. -/
def processTrial (window_size : ℚ) (fps nch n : ℕ) (codes : List (ℤ × List ℤ))
    (offset : ℚ) (focus_rising : Bool) (trial : List (List ℚ)) (lab : ℤ) (tnb : ℕ) :
    Option (List (List (List ℚ)) × List ℤ × List ℕ) :=
  match codes.lookup lab with
  | none => none
  | some c =>
    windowInner trial
      (if focus_rising then
        focusedOf (List.replicate (truncQ (offset * fps)).toNat (0 : ℤ) ++ upsampleCode c fps)
          (lengthFrames window_size fps)
      else
        List.replicate (truncQ (offset * fps)).toNat (0 : ℤ) ++ upsampleCode c fps)
      nch n (tnb * lengthFrames window_size fps) (List.range (lengthFrames window_size fps))

/-- The outer `for trial_nb, trial in enumerate(data)` loop, reading
`labels[trial_nb]` positionally (index error when `labels` is exhausted). -/
def windowOuter (window_size : ℚ) (fps nch n : ℕ) (codes : List (ℤ × List ℤ))
    (offset : ℚ) (focus_rising : Bool) :
    List (List (List ℚ)) → List ℤ → ℕ → Option (List (List (List ℚ)) × List ℤ × List ℕ)
  | [], _, _ => some ([], [], [])
  | _ :: _, [], _ => none
  | trial :: rest, lab :: labs, tnb =>
    match processTrial window_size fps nch n codes offset focus_rising trial lab tnb with
    | none => none
    | some (a, b, c) =>
      match windowOuter window_size fps nch n codes offset focus_rising rest labs (tnb + 1) with
      | none => none
      | some (a2, b2, c2) => some (a ++ a2, b ++ b2, c ++ c2)

/-- `__to_window_by_frame(data, labels, n_samples_windows, codes, offset,
focus_rising)`: returns `(X, Y, idx_taken)` or raises (`none`). -/
def to_window_by_frame (window_size : ℚ) (fps nch : ℕ) (data : List (List (List ℚ)))
    (labels : List ℤ) (n_samples_windows : ℕ) (codes : List (ℤ × List ℤ))
    (offset : ℚ) (focus_rising : Bool) :
    Option (List (List (List ℚ)) × List ℤ × List ℕ) :=
  windowOuter window_size fps nch n_samples_windows codes offset focus_rising data labels 0

/-! ### Onset Realigner: `__onset_anno`

Source (with `self.sfreq`, `self.fps`, `self.window_size` as dataset
parameters):
```
assert(self.sfreq!=0)
new_onset = []
new_onset_0 = []
current_code = 0
onset_code = np.ceil(onset_code*self.fps/self.sfreq)
nb_seq_min-=1
onset_shift = onset_code[current_code+nb_seq_min]
time_trial = (2.2-self.window_size)
for i,o in enumerate(onset_window):
    if label_window[i]==1:
        if current_code==nb_seq_max-1-nb_seq_min:
            new_onset.append(o+onset_shift)
        else:
            if o+onset_shift >= onset_code[current_code+nb_seq_min]+time_trial*self.fps:
                current_code+=1
                onset_shift = onset_code[current_code+nb_seq_min]-time_trial*self.fps*current_code
            new_onset.append(o+onset_shift)
    else:
        ... (identical state update, appending to new_onset_0)
new_onset_0 = np.array(list(filter(lambda i: i not in new_onset, new_onset_0)))
return np.array(new_onset)/self.fps, np.array(new_onset_0)/self.fps
```
-/

/-- One frame of the realigner walk: from state `(current_code, onset_shift)`
and frame index `o`, the next state and the appended absolute onset.
`m` is the already-decremented `nb_seq_min`, `M` is `nb_seq_max` and
`ttf = time_trial * fps`. -/
def onsetStep (oc : List ℚ) (m M : ℤ) (ttf : ℚ) (cc : ℤ) (shift : ℚ) (o : ℚ) :
    Option (ℤ × ℚ × ℚ) :=
  if cc = M - 1 - m then some (cc, shift, o + shift)
  else
    match pyIdx oc (cc + m) with
    | none => none
    | some base =>
      if base + ttf ≤ o + shift then
        match pyIdx oc (cc + 1 + m) with
        | none => none
        | some base2 =>
          some (cc + 1, base2 - ttf * ((cc + 1 : ℤ) : ℚ),
                o + (base2 - ttf * ((cc + 1 : ℤ) : ℚ)))
      else some (cc, shift, o + shift)

/-- The `for i,o in enumerate(onset_window)` walk, reading `label_window[i]`
positionally and routing each absolute onset into the on- or off-list. -/
def onsetLoop (oc : List ℚ) (m M : ℤ) (ttf : ℚ) :
    List ℚ → List ℤ → ℤ → ℚ → Option (List ℚ × List ℚ)
  | [], _, _, _ => some ([], [])
  | _ :: _, [], _, _ => none
  | o :: os, lab :: labs, cc, shift =>
    match onsetStep oc m M ttf cc shift o with
    | none => none
    | some (cc2, shift2, onset) =>
      match onsetLoop oc m M ttf os labs cc2 shift2 with
      | none => none
      | some (ons, offs) =>
        if lab = 1 then some (onset :: ons, offs) else some (ons, onset :: offs)

/-- The same walk, instrumented: the per-frame list of
`(current_code, absolute onset)` pairs (the state update of `onsetStep` does
not depend on the frame's label, so this is the label-independent part of
`onsetLoop`). -/
def onsetTrace (oc : List ℚ) (m M : ℤ) (ttf : ℚ) :
    List ℚ → ℤ → ℚ → Option (List (ℤ × ℚ))
  | [], _, _ => some []
  | o :: os, cc, shift =>
    match onsetStep oc m M ttf cc shift o with
    | none => none
    | some (cc2, shift2, onset) =>
      match onsetTrace oc m M ttf os cc2 shift2 with
      | none => none
      | some t => some ((cc2, onset) :: t)

/-- `np.ceil(onset_code * fps / sfreq)`: the rescaled trial onsets. -/
def scaleOnsets (onset_code : List ℚ) (fps sfreq : ℚ) : List ℚ :=
  onset_code.map (fun x => ((ceilQ (x * fps / sfreq) : ℤ) : ℚ))

/-- `__onset_anno` up to (and excluding) the final duplicate filter and the
division by `fps`: the raw on- and off-lists of absolute frame onsets. -/
def onset_annoRaw (sfreq fps window_size : ℚ) (onset_window : List ℚ)
    (label_window : List ℤ) (onset_code : List ℚ) (nb_seq_min nb_seq_max : ℤ) :
    Option (List ℚ × List ℚ) :=
  if sfreq = 0 then none
  else
    match pyIdx (scaleOnsets onset_code fps sfreq) (0 + (nb_seq_min - 1)) with
    | none => none
    | some shift0 =>
      onsetLoop (scaleOnsets onset_code fps sfreq) (nb_seq_min - 1) nb_seq_max
        ((22/10 - window_size) * fps) onset_window label_window 0 shift0

/-- `__onset_anno(onset_window, label_window, onset_code, nb_seq_min,
nb_seq_max)`: the raw walk, then removal from the off-list of every value
also present in the on-list, then division of both lists by `fps`. -/
def onset_anno (sfreq fps window_size : ℚ) (onset_window : List ℚ)
    (label_window : List ℤ) (onset_code : List ℚ) (nb_seq_min nb_seq_max : ℤ) :
    Option (List ℚ × List ℚ) :=
  match onset_annoRaw sfreq fps window_size onset_window label_window onset_code
      nb_seq_min nb_seq_max with
  | none => none
  | some (ons, offs) =>
    some (ons.map (· / fps),
          ((offs.filter (fun x => decide (x ∉ ons))).map (· / fps)))

/-! ### General helper lemmas -/

theorem floorQ_eq (q : ℚ) : floorQ q = ⌊q⌋ := by
  rw [Rat.floor_def, floorQ]

theorem ceilQ_eq (q : ℚ) : ceilQ q = ⌈q⌉ := by
  have h : ⌈q⌉ = -⌊-q⌋ := by rw [← Int.ceil_neg, neg_neg]
  rw [h, ← floorQ_eq, ceilQ, floorQ, Rat.neg_num, Rat.neg_den]

theorem mapOption_eq_map {f : α → Option β} {g : α → β} :
    ∀ l : List α, (∀ x ∈ l, f x = some (g x)) → mapOption f l = some (l.map g) := by
  intro l
  induction l with
  | nil => intro _; rfl
  | cons x xs ih =>
    intro h
    have hx := h x (List.mem_cons_self x xs)
    have hxs := ih (fun y hy => h y (List.mem_cons_of_mem x hy))
    simp only [mapOption, hx, hxs, List.map_cons]

theorem mapOption_eq_none {f : α → Option β} {x : α} :
    ∀ l : List α, x ∈ l → f x = none → mapOption f l = none := by
  intro l
  induction l with
  | nil => intro h; exact absurd h (List.not_mem_nil x)
  | cons y ys ih =>
    intro hmem hx
    rcases List.mem_cons.mp hmem with h | h
    · subst h; simp only [mapOption, hx]
    · have := ih h hx
      simp only [mapOption, this]
      cases f y <;> rfl

theorem mapOption_mem {f : α → Option β} :
    ∀ {l : List α} {ys : List β}, mapOption f l = some ys →
      ∀ y ∈ ys, ∃ x ∈ l, f x = some y := by
  intro l
  induction l with
  | nil =>
    intro ys h y hy
    simp only [mapOption] at h
    cases h
    exact absurd hy (List.not_mem_nil y)
  | cons x xs ih =>
    intro ys h y hy
    simp only [mapOption] at h
    cases hfx : f x with
    | none => rw [hfx] at h; cases h
    | some z =>
      rw [hfx] at h
      cases hrest : mapOption f xs with
      | none => rw [hrest] at h; cases h
      | some zs =>
        rw [hrest] at h
        cases h
        rcases List.mem_cons.mp hy with h | h
        · exact ⟨x, List.mem_cons_self x xs, h ▸ hfx⟩
        · rcases ih hrest y h with ⟨x2, hx2, hfx2⟩
          exact ⟨x2, List.mem_cons_of_mem x hx2, hfx2⟩

theorem get_set' (l : List ℤ) (i j : ℕ) (v : ℤ) :
    (l.set i v).get? j = if i = j ∧ j < l.length then some v else l.get? j := by
  by_cases hij : i = j
  · subst hij
    by_cases hi : i < l.length
    · simp [List.get?_set_eq_of_lt v hi, hi]
    · have h1 : l.get? i = none := List.get?_eq_none.mpr (Nat.le_of_not_lt hi)
      have h2 : (l.set i v).get? i = none := by
        refine List.get?_eq_none.mpr ?_
        rw [List.length_set]
        exact Nat.le_of_not_lt hi
      rw [if_neg (fun hcon => hi hcon.2), h1, h2]
  · simp [List.get?_set_ne v l hij, hij]

theorem get_replicate' (n p : ℕ) (v : ℤ) (h : p < n) :
    (List.replicate n v).get? p = some v := by
  simp [List.get?_eq_getElem?, List.getElem?_replicate, h]

/-! ### Codebook Parser lemmas -/

theorem splitFirst_append (xs ys : List Char) (h : '_' ∉ xs) :
    splitFirst (xs ++ '_' :: ys) = xs := by
  induction xs with
  | nil => simp [splitFirst]
  | cons c cs ih =>
    have hc : c ≠ '_' := fun hc => h (hc ▸ List.mem_cons_self c cs)
    simp only [List.cons_append, splitFirst, if_neg hc, List.append_eq]
    rw [ih (fun hm => h (List.mem_cons_of_mem c hm))]

/-- C4: for a label string `"<digits>_<tag>"` with digits drawn from
`{0,1,2,.}` mapped to a positive identifier `v`, the parser produces under
key `v - 1` exactly the digit substring before the first underscore with
every `'2'` and `'.'` deleted, each remaining character mapped digit-wise to
its integer value. -/
theorem codebook_roundtrip (digits tag : List Char) (v : ℤ) (hv : 1 ≤ v)
    (hd : ∀ c ∈ digits, c = '0' ∨ c = '1' ∨ c = '2' ∨ c = '.') :
    code2array [(digits ++ '_' :: tag, v)] =
      some [(v - 1, (digits.filter (fun c => decide (c ≠ '.' ∧ c ≠ '2'))).map
        (fun c => ((c.toNat : ℤ) - ('0'.toNat : ℤ))))] := by
  have hnd : '_' ∉ digits := by
    intro hm
    rcases hd '_' hm with h | h | h | h <;> exact absurd h (by decide)
  have hclean : cleanCode (digits ++ '_' :: tag) =
      digits.filter (fun c => decide (c ≠ '.' ∧ c ≠ '2')) := by
    unfold cleanCode
    rw [splitFirst_append digits tag hnd]
  have hparse : parseCode (digits ++ '_' :: tag) =
      some ((digits.filter (fun c => decide (c ≠ '.' ∧ c ≠ '2'))).map
        (fun c => ((c.toNat : ℤ) - ('0'.toNat : ℤ)))) := by
    unfold parseCode
    rw [hclean]
    refine mapOption_eq_map _ ?_
    intro c hc
    have hcd := hd c (List.mem_of_mem_filter hc)
    have hck := (List.mem_filter.mp hc).2
    have hck2 := of_decide_eq_true hck
    rcases hcd with h | h | h | h
    · subst h; rfl
    · subst h; rfl
    · exact absurd h hck2.2
    · exact absurd h hck2.1
  unfold code2array code2arrayAux
  rw [hparse]
  rfl

theorem codebook_roundtrip_witness :
    code2array [(['1', '0', '2', '.', '1', '_', 'a'], 2)] = some [(1, [1, 0, 1])] := by
  have h := codebook_roundtrip ['1', '0', '2', '.', '1'] ['a'] 2 (by decide) (by decide)
  rw [show (['1', '0', '2', '.', '1'] ++ '_' :: ['a']) =
    ['1', '0', '2', '.', '1', '_', 'a'] from rfl] at h
  rw [h]
  decide

theorem code2arrayAux_none {k : List Char} {v : ℤ} (hk : parseCode k = none) :
    ∀ (event_id : List (List Char × ℤ)) (m : List (ℤ × List ℤ)),
      (k, v) ∈ event_id → code2arrayAux m event_id = none := by
  intro event_id
  induction event_id with
  | nil => intro m h; exact absurd h (List.not_mem_nil _)
  | cons p rest ih =>
    intro m hmem
    rcases List.mem_cons.mp hmem with h | h
    · obtain ⟨p1, p2⟩ := p
      injection h with h1 h2
      subst h1
      simp only [code2arrayAux, hk]
    · obtain ⟨p1, p2⟩ := p
      simp only [code2arrayAux]
      cases hp : parseCode p1 with
      | none => rfl
      | some code => exact ih _ h

/-- C5 (amended): the parser fails with a parsing error exactly when some
character remaining after cleanup is not an ASCII decimal digit; remaining
digits other than `'0'`/`'1'` (such as `'3'`) are coerced silently. -/
theorem codebook_parse_error (event_id : List (List Char × ℤ)) (k : List Char) (v : ℤ)
    (hmem : (k, v) ∈ event_id) (c : Char) (hc : c ∈ cleanCode k)
    (hbad : ¬('0' ≤ c ∧ c ≤ '9')) :
    code2array event_id = none := by
  have hpy : pyInt c = none := by simp [pyInt, hbad]
  have hk : parseCode k = none := mapOption_eq_none _ hc hpy
  exact code2arrayAux_none hk event_id [] hmem

theorem codebook_parse_error_witness :
    code2array [(['a', '_', 'x'], 1)] = none :=
  codebook_parse_error [(['a', '_', 'x'], 1)] ['a', '_', 'x'] 1 (by decide) 'a'
    (by decide) (by decide)

/-- C5 (counterexample): a remaining character that is not `'0'` or `'1'`
(the digit `'3'`) does not raise a parsing error: it is silently coerced to
the integer 3. -/
theorem codebook_nonbinary_coerced :
    code2array [(['3', '_', 'a'], 1)] = some [(0, [3])] := by decide

/-! ### C1: end-to-end example of the Onset Realigner -/

/-- C1: with `sfreq = 500`, `fps = 60`, `window_size = 0.25`,
`onset_code = [1000, 2000]`, `nb_seq_min = 1`, `nb_seq_max = 2`,
`onset_window = [0,1,2]`, `label_window = [1,0,1]`, the realigner returns
on-onsets `[120/60, 122/60]` and off-onset `[121/60]` seconds, and the
rescaled onset of trial 0 is `ceil(1000*60/500) = 120` frames. -/
theorem end_to_end_example :
    onset_anno 500 60 (1/4) [0, 1, 2] [1, 0, 1] [1000, 2000] 1 2 =
      some ([120/60, 122/60], [121/60]) ∧
    scaleOnsets [1000, 2000] 60 500 = [120, 240] := by
  constructor
  · norm_num [onset_anno, onset_annoRaw, onsetLoop, onsetStep, scaleOnsets, pyIdx,
      ceilQ_eq, List.filter]
  · norm_num [scaleOnsets, ceilQ_eq]

/-! ### C6: rising-edge focus -/

theorem sliceMark_get (l : List ℤ) (idx p : ℕ) :
    (sliceMark l idx).get? p =
      if idx ≤ p ∧ p < idx + 4 ∧ p < l.length then some 1 else l.get? p := by
  simp only [sliceMark, get_set', List.length_set]
  split_ifs <;> first | rfl | (exfalso; omega)

/-- C6: for the padded label sequence `[0,0,1,1,0,0,1,0]` in rising-edge
focus mode, the focused label array has size `length`, and position `p`
holds 1 exactly when `p ∈ {2,3,4,5} ∪ {6,7,8,9}` (intersected with
`[0, length)` by construction), 0 otherwise: each 0→1 transition at padded
index `idx` marks positions `idx` through `idx+3`, clipped to bounds. -/
theorem rising_edge_focus (len p : ℕ) (hp : p < len) :
    (focusedOf [0, 0, 1, 1, 0, 0, 1, 0] len).length = len ∧
    (focusedOf [0, 0, 1, 1, 0, 0, 1, 0] len).get? p =
      some (if (2 ≤ p ∧ p ≤ 5) ∨ (6 ≤ p ∧ p ≤ 9) then (1 : ℤ) else 0) := by
  have hhi : hiIndices [0, 0, 1, 1, 0, 0, 1, 0] = [2, 6] := by decide
  have hfold : focusedOf [0, 0, 1, 1, 0, 0, 1, 0] len =
      sliceMark (sliceMark (List.replicate len 0) 2) 6 := by
    unfold focusedOf
    rw [hhi]
    rfl
  constructor
  · rw [hfold]
    simp [sliceMark, List.length_set, List.length_replicate]
  · rw [hfold, sliceMark_get, sliceMark_get]
    simp only [sliceMark, List.length_set, List.length_replicate]
    split_ifs <;> first | rfl | (exfalso; omega) | (exact get_replicate' len p 0 hp)

theorem rising_edge_focus_witness :
    (focusedOf [0, 0, 1, 1, 0, 0, 1, 0] 7).length = 7 ∧
    (focusedOf [0, 0, 1, 1, 0, 0, 1, 0] 7).get? 3 =
      some (if (2 ≤ 3 ∧ 3 ≤ 5) ∨ (6 ≤ 3 ∧ 3 ≤ 9) then (1 : ℤ) else 0) :=
  rising_edge_focus 7 3 (by decide)

/-! ### Onset Realigner lemmas -/

theorem onsetLoop_length (oc : List ℚ) (m M : ℤ) (ttf : ℚ) :
    ∀ (ow : List ℚ) (labs : List ℤ) (cc : ℤ) (sh : ℚ) (ons offs : List ℚ),
      onsetLoop oc m M ttf ow labs cc sh = some (ons, offs) →
      ons.length + offs.length = ow.length := by
  intro ow
  induction ow with
  | nil =>
    intro labs cc sh ons offs h
    simp only [onsetLoop] at h
    cases h
    simp
  | cons o os ih =>
    intro labs cc sh ons offs h
    cases labs with
    | nil => simp only [onsetLoop] at h; cases h
    | cons lab labs2 =>
      simp only [onsetLoop] at h
      cases hstep : onsetStep oc m M ttf cc sh o with
      | none => simp only [hstep] at h; cases h
      | some trip =>
        obtain ⟨cc2, sh2, onset⟩ := trip
        simp only [hstep] at h
        cases hrec : onsetLoop oc m M ttf os labs2 cc2 sh2 with
        | none => simp only [hrec] at h; cases h
        | some pr =>
          obtain ⟨ons2, offs2⟩ := pr
          simp only [hrec] at h
          have hlen := ih labs2 cc2 sh2 ons2 offs2 hrec
          by_cases hlab : lab = 1
          · rw [if_pos hlab] at h
            cases h
            simp only [List.length_cons]
            omega
          · rw [if_neg hlab] at h
            cases h
            simp only [List.length_cons]
            omega

theorem onset_annoRaw_some {sfreq fps ws : ℚ} {ow : List ℚ} {lw : List ℤ}
    {ocode : List ℚ} {nsm nsM : ℤ} {p : List ℚ × List ℚ}
    (h : onset_annoRaw sfreq fps ws ow lw ocode nsm nsM = some p) :
    ∃ sh0, pyIdx (scaleOnsets ocode fps sfreq) (0 + (nsm - 1)) = some sh0 ∧
      onsetLoop (scaleOnsets ocode fps sfreq) (nsm - 1) nsM ((22/10 - ws) * fps)
        ow lw 0 sh0 = some p := by
  by_cases h0 : sfreq = 0
  · rw [onset_annoRaw, if_pos h0] at h
    cases h
  · rw [onset_annoRaw, if_neg h0] at h
    cases hidx : pyIdx (scaleOnsets ocode fps sfreq) (0 + (nsm - 1)) with
    | none => simp only [hidx] at h; cases h
    | some sh0 =>
      simp only [hidx] at h
      exact ⟨sh0, rfl, h⟩

/-- C2: for any realigner input on which the call succeeds, the returned
off-sequence is disjoint from the on-sequence, and the two counts sum to
the number of input frames minus the number of off-entries removed because
their value also appears in the (raw) on-sequence. -/
theorem onset_partition (sfreq fps ws : ℚ) (ow : List ℚ) (lw : List ℤ)
    (ocode : List ℚ) (nsm nsM : ℤ) (rons roffs ons offs : List ℚ)
    (hfps : fps ≠ 0)
    (hraw : onset_annoRaw sfreq fps ws ow lw ocode nsm nsM = some (rons, roffs))
    (h : onset_anno sfreq fps ws ow lw ocode nsm nsM = some (ons, offs)) :
    (∀ x ∈ offs, x ∉ ons) ∧
    ons.length + offs.length =
      ow.length - (roffs.filter (fun x => decide (x ∈ rons))).length := by
  rw [onset_anno, hraw] at h
  have hons : ons = rons.map (· / fps) := by
    cases h; rfl
  have hoffs : offs = (roffs.filter (fun x => decide (x ∉ rons))).map (· / fps) := by
    cases h; rfl
  obtain ⟨sh0, hsh0, hloop⟩ := onset_annoRaw_some hraw
  have hcount := onsetLoop_length _ _ _ _ _ _ _ _ _ _ hloop
  constructor
  · intro x hx hxon
    rw [hoffs] at hx
    rw [hons] at hxon
    obtain ⟨y, hyf, rfl⟩ := List.mem_map.mp hx
    obtain ⟨z, hz, hzq⟩ := List.mem_map.mp hxon
    have hznoty : z = y := (div_left_inj' hfps).mp hzq
    have hynot : y ∉ rons := of_decide_eq_true (List.mem_filter.mp hyf).2
    exact hynot (hznoty ▸ hz)
  · have hsplit := List.length_eq_length_filter_add (fun x => decide (x ∈ rons)) (l := roffs)
    have hnot : (fun x => !(decide (x ∈ rons))) = (fun x => decide (x ∉ rons)) := by
      funext x
      rw [decide_not]
    rw [hnot] at hsplit
    rw [hons, hoffs, List.length_map, List.length_map]
    omega

theorem onset_partition_witness :
    onset_annoRaw 500 60 (1/4) [0, 0] [1, 0] [1000, 2000] 1 2 = some ([120], [120]) ∧
    ([(2 : ℚ)].length + ([] : List ℚ).length =
      ([(0 : ℚ), 0]).length - (([(120 : ℚ)].filter (fun x => decide (x ∈ [(120 : ℚ)]))).length)) := by
  have hraw : onset_annoRaw 500 60 (1/4) [0, 0] [1, 0] [1000, 2000] 1 2 =
      some ([120], [120]) := by
    norm_num [onset_annoRaw, onsetLoop, onsetStep, scaleOnsets, pyIdx, ceilQ_eq]
  have hanno : onset_anno 500 60 (1/4) [0, 0] [1, 0] [1000, 2000] 1 2 =
      some ([2], []) := by
    rw [onset_anno, hraw]
    norm_num [List.filter]
  exact ⟨hraw,
    (onset_partition 500 60 (1/4) [0, 0] [1, 0] [1000, 2000] 1 2 [120] [120] [2] []
      (by norm_num) hraw hanno).2⟩

theorem onsetStep_inv {oc : List ℚ} {m M : ℤ} {ttf : ℚ} {cc : ℤ} {sh : ℚ} {o : ℚ}
    {cc2 : ℤ} {sh2 x : ℚ} {b : ℚ}
    (hb : pyIdx oc (cc + m) = some b) (hsh : sh = b - ttf * (cc : ℚ))
    (hs : onsetStep oc m M ttf cc sh o = some (cc2, sh2, x)) :
    ∃ b2, pyIdx oc (cc2 + m) = some b2 ∧ sh2 = b2 - ttf * ((cc2 : ℤ) : ℚ) ∧
      x = o + sh2 := by
  unfold onsetStep at hs
  by_cases hcond : cc = M - 1 - m
  · rw [if_pos hcond] at hs
    cases hs
    exact ⟨b, hb, hsh, rfl⟩
  · rw [if_neg hcond] at hs
    simp only [hb] at hs
    by_cases hge : b + ttf ≤ o + sh
    · rw [if_pos hge] at hs
      cases hidx2 : pyIdx oc (cc + 1 + m) with
      | none => simp only [hidx2] at hs; cases hs
      | some b2 =>
        simp only [hidx2] at hs
        cases hs
        exact ⟨b2, hidx2, rfl, rfl⟩
    · rw [if_neg hge] at hs
      cases hs
      exact ⟨b, hb, hsh, rfl⟩

theorem onsetTrace_length (oc : List ℚ) (m M : ℤ) (ttf : ℚ) :
    ∀ (ow : List ℚ) (cc : ℤ) (sh : ℚ) (t : List (ℤ × ℚ)),
      onsetTrace oc m M ttf ow cc sh = some t → t.length = ow.length := by
  intro ow
  induction ow with
  | nil =>
    intro cc sh t h
    simp only [onsetTrace] at h
    cases h
    rfl
  | cons o os ih =>
    intro cc sh t h
    simp only [onsetTrace] at h
    cases hstep : onsetStep oc m M ttf cc sh o with
    | none => simp only [hstep] at h; cases h
    | some trip =>
      obtain ⟨cc2, sh2, x⟩ := trip
      simp only [hstep] at h
      cases hrec : onsetTrace oc m M ttf os cc2 sh2 with
      | none => simp only [hrec] at h; cases h
      | some t2 =>
        simp only [hrec] at h
        cases h
        simp only [List.length_cons, ih cc2 sh2 t2 hrec]

theorem onsetTrace_entries (oc : List ℚ) (m M : ℤ) (ttf : ℚ) :
    ∀ (ow : List ℚ) (cc : ℤ) (sh b : ℚ) (t : List (ℤ × ℚ)),
      pyIdx oc (cc + m) = some b → sh = b - ttf * (cc : ℚ) →
      onsetTrace oc m M ttf ow cc sh = some t →
      ∀ (k : ℕ) (ck : ℤ) (xk o : ℚ), t.get? k = some (ck, xk) → ow.get? k = some o →
        ∃ bk, pyIdx oc (ck + m) = some bk ∧ xk = o + (bk - ttf * (ck : ℚ)) := by
  intro ow
  induction ow with
  | nil =>
    intro cc sh b t hb hsh ht k ck xk o hk hok
    simp only [onsetTrace] at ht
    cases ht
    simp at hk
  | cons o1 os ih =>
    intro cc sh b t hb hsh ht k ck xk o hk hok
    simp only [onsetTrace] at ht
    cases hstep : onsetStep oc m M ttf cc sh o1 with
    | none => simp only [hstep] at ht; cases ht
    | some trip =>
      obtain ⟨cc2, sh2, x⟩ := trip
      simp only [hstep] at ht
      cases hrec : onsetTrace oc m M ttf os cc2 sh2 with
      | none => simp only [hrec] at ht; cases ht
      | some t2 =>
        simp only [hrec] at ht
        cases ht
        obtain ⟨b2, hb2, hsh2, hx⟩ := onsetStep_inv hb hsh hstep
        cases k with
        | zero =>
          simp only [List.get?_cons_zero] at hk hok
          injection hk with hk2
          injection hok with hok2
          injection hk2 with hk3 hk4
          refine ⟨b2, hk3 ▸ hb2, ?_⟩
          rw [← hok2, ← hk4, ← hk3, hx, hsh2]
        | succ k2 =>
          simp only [List.get?_cons_succ] at hk hok
          exact ih cc2 sh2 b2 t2 hb2 hsh2 hrec k2 ck xk o hk hok

theorem pairwise_le_get (ow : List ℚ) (hmono : ow.Pairwise (· ≤ ·))
    (i j : ℕ) (oi oj : ℚ) (hij : i ≤ j)
    (hi : ow.get? i = some oi) (hj : ow.get? j = some oj) : oi ≤ oj := by
  rcases Nat.lt_or_ge i j with hlt | hge
  · obtain ⟨hi2, hie⟩ := List.get?_eq_some.mp hi
    obtain ⟨hj2, hje⟩ := List.get?_eq_some.mp hj
    have := List.pairwise_iff_get.mp hmono ⟨i, hi2⟩ ⟨j, hj2⟩ hlt
    rw [hie, hje] at this
    exact this
  · have : i = j := Nat.le_antisymm hij hge
    subst this
    rw [hi] at hj
    injection hj with h
    exact le_of_eq h

/-- C7: for the realigner's walk on a non-decreasing frame-index sequence,
any two frames attributed to the same trial (the same `current_code`) have
non-decreasing absolute onsets. -/
theorem onset_monotone (sfreq fps ws : ℚ) (ow : List ℚ) (ocode : List ℚ)
    (nsm nsM : ℤ) (b : ℚ) (t : List (ℤ × ℚ))
    (hmono : ow.Pairwise (· ≤ ·))
    (hb : pyIdx (scaleOnsets ocode fps sfreq) (0 + (nsm - 1)) = some b)
    (ht : onsetTrace (scaleOnsets ocode fps sfreq) (nsm - 1) nsM
        ((22/10 - ws) * fps) ow 0 b = some t) :
    ∀ (i j : ℕ) (ci cj : ℤ) (xi xj : ℚ), i ≤ j →
      t.get? i = some (ci, xi) → t.get? j = some (cj, xj) → ci = cj → xi ≤ xj := by
  intro i j ci cj xi xj hij hi hj hcij
  have hb0 : pyIdx (scaleOnsets ocode fps sfreq) (0 + (nsm - 1)) = some b := hb
  have hsh0 : (b : ℚ) = b - ((22/10 - ws) * fps) * ((0 : ℤ) : ℚ) := by
    push_cast
    ring
  have hlen := onsetTrace_length _ _ _ _ _ _ _ _ ht
  have hilt : i < ow.length := by
    rw [← hlen]
    exact (List.get?_eq_some.mp hi).1
  have hjlt : j < ow.length := by
    rw [← hlen]
    exact (List.get?_eq_some.mp hj).1
  obtain ⟨oi, hoi⟩ : ∃ oi, ow.get? i = some oi :=
    ⟨ow.get ⟨i, hilt⟩, List.get?_eq_get hilt⟩
  obtain ⟨oj, hoj⟩ : ∃ oj, ow.get? j = some oj :=
    ⟨ow.get ⟨j, hjlt⟩, List.get?_eq_get hjlt⟩
  obtain ⟨bi, hbi, hxi⟩ :=
    onsetTrace_entries _ _ _ _ ow 0 b b t hb0 hsh0 ht i ci xi oi hi hoi
  obtain ⟨bj, hbj, hxj⟩ :=
    onsetTrace_entries _ _ _ _ ow 0 b b t hb0 hsh0 ht j cj xj oj hj hoj
  subst hcij
  rw [hbi] at hbj
  injection hbj with hbij
  have hole : oi ≤ oj := pairwise_le_get ow hmono i j oi oj hij hoi hoj
  rw [hxi, hxj, ← hbij]
  linarith

theorem onset_monotone_witness :
    onsetTrace (scaleOnsets [1000, 2000] 60 500) (1 - 1) 2 ((22/10 - 1/4) * 60)
      [0, 1, 2] 0 120 = some [(0, 120), (0, 121), (0, 122)] ∧ (120 : ℚ) ≤ 122 := by
  have ht : onsetTrace (scaleOnsets [1000, 2000] 60 500) (1 - 1) 2 ((22/10 - 1/4) * 60)
      [0, 1, 2] 0 120 = some [(0, 120), (0, 121), (0, 122)] := by
    norm_num [onsetTrace, onsetStep, scaleOnsets, pyIdx, ceilQ_eq]
  refine ⟨ht, ?_⟩
  exact onset_monotone 500 60 (1/4) [0, 1, 2] [1000, 2000] 1 2 120
    [(0, 120), (0, 121), (0, 122)]
    (by norm_num [List.pairwise_cons])
    (by norm_num [pyIdx, scaleOnsets, ceilQ_eq])
    ht 0 2 0 0 120 122 (by omega) rfl rfl rfl

/-! ### Frame Windower lemmas -/

theorem upsampleCode_60 (c : List ℤ) : upsampleCode c 60 = c := by
  unfold upsampleCode
  induction c with
  | nil => rfl
  | cons b t ih =>
    simp only [List.map_cons, List.flatten_cons, ih]
    norm_num

theorem windowInner_spec (trial : List (List ℚ)) (focused : List ℤ) (nch n tbase : ℕ) :
    ∀ (idxs : List ℕ) (a : List (List (List ℚ))) (b : List ℤ) (c : List ℕ),
      windowInner trial focused nch n tbase idxs = some (a, b, c) →
      a.length = idxs.length ∧ b.length = idxs.length ∧ c = idxs.map (tbase + ·) ∧
      ∀ (k i : ℕ), idxs.get? k = some i →
        a.get? k = assignWindow (windowSlice trial i n) nch n ∧
        b.get? k = focused.get? i := by
  intro idxs
  induction idxs with
  | nil =>
    intro a b c h
    simp only [windowInner] at h
    cases h
    refine ⟨rfl, rfl, rfl, ?_⟩
    intro k i hk
    simp at hk
  | cons idx rest ih =>
    intro a b c h
    simp only [windowInner] at h
    cases hw : assignWindow (windowSlice trial idx n) nch n with
    | none => simp only [hw] at h; cases h
    | some w =>
      simp only [hw] at h
      cases hy : focused.get? idx with
      | none => simp only [hy] at h; cases h
      | some y =>
        simp only [hy] at h
        cases hrec : windowInner trial focused nch n tbase rest with
        | none => simp only [hrec] at h; cases h
        | some tri =>
          obtain ⟨a2, b2, c2⟩ := tri
          simp only [hrec] at h
          cases h
          obtain ⟨hal, hbl, hc, hspec⟩ := ih a2 b2 c2 hrec
          refine ⟨by simp [hal], by simp [hbl], by simp [hc], ?_⟩
          intro k i hk
          cases k with
          | zero =>
            simp only [List.get?_cons_zero] at hk ⊢
            injection hk with hk2
            subst hk2
            exact ⟨hw.symm, hy.symm⟩
          | succ k2 =>
            simp only [List.get?_cons_succ] at hk ⊢
            exact hspec k2 i hk

theorem processTrial_parts {ws : ℚ} {fps nch n : ℕ} {codes : List (ℤ × List ℤ)}
    {offset : ℚ} {focus : Bool} {trial : List (List ℚ)} {lab : ℤ} {tnb : ℕ}
    {a : List (List (List ℚ))} {b : List ℤ} {c : List ℕ}
    (h : processTrial ws fps nch n codes offset focus trial lab tnb = some (a, b, c)) :
    a.length = lengthFrames ws fps ∧ b.length = lengthFrames ws fps ∧
    c = (List.range (lengthFrames ws fps)).map (tnb * lengthFrames ws fps + ·) ∧
    ∀ i : ℕ, i < lengthFrames ws fps →
      a.get? i = assignWindow (windowSlice trial i n) nch n := by
  unfold processTrial at h
  cases hlk : codes.lookup lab with
  | none => simp only [hlk] at h; cases h
  | some code =>
    simp only [hlk] at h
    obtain ⟨hal, hbl, hc, hspec⟩ := windowInner_spec trial _ nch n _ _ a b c h
    rw [List.length_range] at hal hbl
    refine ⟨hal, hbl, hc, ?_⟩
    intro i hi
    exact (hspec i i (List.get?_range hi)).1

theorem windowOuter_spec (ws : ℚ) (fps nch n : ℕ) (codes : List (ℤ × List ℤ))
    (offset : ℚ) (focus : Bool) :
    ∀ (data : List (List (List ℚ))) (labs : List ℤ) (t0 : ℕ)
      (X : List (List (List ℚ))) (Y : List ℤ) (I : List ℕ),
      windowOuter ws fps nch n codes offset focus data labs t0 = some (X, Y, I) →
      X.length = data.length * lengthFrames ws fps ∧
      Y.length = data.length * lengthFrames ws fps ∧
      I = (List.range (data.length * lengthFrames ws fps)).map
        (t0 * lengthFrames ws fps + ·) ∧
      data.length ≤ labs.length ∧
      ∀ (t : ℕ) (tr : List (List ℚ)) (lab : ℤ),
        data.get? t = some tr → labs.get? t = some lab →
        ∃ a b c,
          processTrial ws fps nch n codes offset focus tr lab (t0 + t) = some (a, b, c) ∧
          ∀ i : ℕ, i < lengthFrames ws fps →
            X.get? (t * lengthFrames ws fps + i) = a.get? i ∧
            Y.get? (t * lengthFrames ws fps + i) = b.get? i := by
  intro data
  induction data with
  | nil =>
    intro labs t0 X Y I h
    simp only [windowOuter] at h
    cases h
    refine ⟨by simp, by simp, by simp, by simp, ?_⟩
    intro t tr lab ht
    simp at ht
  | cons trial rest ih =>
    intro labs t0 X Y I h
    cases labs with
    | nil => simp only [windowOuter] at h; cases h
    | cons lab labs2 =>
      simp only [windowOuter] at h
      cases hpt : processTrial ws fps nch n codes offset focus trial lab t0 with
      | none => simp only [hpt] at h; cases h
      | some tri1 =>
        obtain ⟨a1, b1, c1⟩ := tri1
        simp only [hpt] at h
        cases hrest : windowOuter ws fps nch n codes offset focus rest labs2 (t0 + 1) with
        | none => simp only [hrest] at h; cases h
        | some tri2 =>
          obtain ⟨X2, Y2, I2⟩ := tri2
          simp only [hrest] at h
          cases h
          obtain ⟨hX2, hY2, hI2, hlen2, hspec2⟩ := ih labs2 (t0 + 1) X2 Y2 I2 hrest
          obtain ⟨ha1, hb1, hc1, _⟩ := processTrial_parts hpt
          refine ⟨?_, ?_, ?_, ?_, ?_⟩
          · rw [List.length_append, ha1, hX2, List.length_cons]
            ring
          · rw [List.length_append, hb1, hY2, List.length_cons]
            ring
          · rw [hc1, hI2, List.length_cons,
              show (rest.length + 1) * lengthFrames ws fps =
                lengthFrames ws fps + rest.length * lengthFrames ws fps by ring,
              List.range_add, List.map_append, List.map_map]
            have hfun : ((t0 * lengthFrames ws fps + ·) ∘ (lengthFrames ws fps + ·)) =
                ((t0 + 1) * lengthFrames ws fps + ·) := by
              funext x
              simp only [Function.comp_apply]
              ring
            rw [hfun]
          · simp only [List.length_cons]
            omega
          · intro t tr lab2 htr hlab
            cases t with
            | zero =>
              simp only [List.get?_cons_zero] at htr hlab
              injection htr with htr2
              injection hlab with hlab2
              subst htr2
              subst hlab2
              refine ⟨a1, b1, c1, by simpa using hpt, ?_⟩
              intro i hi
              have hia : i < a1.length := by rw [ha1]; exact hi
              have hib : i < b1.length := by rw [hb1]; exact hi
              constructor
              · rw [show 0 * lengthFrames ws fps + i = i by ring]
                exact List.get?_append hia
              · rw [show 0 * lengthFrames ws fps + i = i by ring]
                exact List.get?_append hib
            | succ t2 =>
              simp only [List.get?_cons_succ] at htr hlab
              obtain ⟨a, b, c, hpt2, hXY⟩ := hspec2 t2 tr lab2 htr hlab
              refine ⟨a, b, c, ?_, ?_⟩
              · rw [show t0 + (t2 + 1) = t0 + 1 + t2 by ring]
                exact hpt2
              · intro i hi
                have hidxa : (t2 + 1) * lengthFrames ws fps + i =
                    a1.length + (t2 * lengthFrames ws fps + i) := by
                  rw [ha1]
                  ring
                have hidxb : (t2 + 1) * lengthFrames ws fps + i =
                    b1.length + (t2 * lengthFrames ws fps + i) := by
                  rw [hb1]
                  ring
                constructor
                · rw [hidxa, List.get?_append_right (Nat.le_add_right _ _),
                    Nat.add_sub_cancel_left]
                  exact (hXY i hi).1
                · rw [hidxb, List.get?_append_right (Nat.le_add_right _ _),
                    Nat.add_sub_cancel_left]
                  exact (hXY i hi).2

/-- C3: on a successful call with refresh rate 60 and trial duration 2.2 s,
the window, label and frame-index outputs each have
`T * floor((2.2 - w) * 60)` entries, the frame indices are exactly
`0, 1, ..., T*length - 1`, and entry `t*length + i` carries the window and
label of trial `t` at frame `i`. -/
theorem frame_count (ws : ℚ) (nch : ℕ) (data : List (List (List ℚ))) (labels : List ℤ)
    (n : ℕ) (codes : List (ℤ × List ℤ)) (offset : ℚ) (focus : Bool)
    (X : List (List (List ℚ))) (Y : List ℤ) (I : List ℕ)
    (hws : ws ≤ 22/10)
    (h : to_window_by_frame ws 60 nch data labels n codes offset focus = some (X, Y, I)) :
    ((lengthFrames ws 60 : ℤ) = ⌊(22/10 - ws) * 60⌋) ∧
    X.length = data.length * lengthFrames ws 60 ∧
    Y.length = data.length * lengthFrames ws 60 ∧
    I = List.range (data.length * lengthFrames ws 60) ∧
    ∀ (t : ℕ) (tr : List (List ℚ)) (lab : ℤ),
      data.get? t = some tr → labels.get? t = some lab →
      ∃ a b c, processTrial ws 60 nch n codes offset focus tr lab t = some (a, b, c) ∧
        ∀ i : ℕ, i < lengthFrames ws 60 →
          X.get? (t * lengthFrames ws 60 + i) = a.get? i ∧
          Y.get? (t * lengthFrames ws 60 + i) = b.get? i := by
  obtain ⟨hX, hY, hI, hlen, hspec⟩ :=
    windowOuter_spec ws 60 nch n codes offset focus data labels 0 X Y I h
  refine ⟨?_, hX, hY, ?_, ?_⟩
  · have hq : (0 : ℚ) ≤ (22/10 - ws) * ((60 : ℕ) : ℚ) := by
      have h1 : (0 : ℚ) ≤ 22/10 - ws := sub_nonneg.mpr hws
      push_cast
      nlinarith
    unfold lengthFrames truncQ
    rw [if_pos hq, floorQ_eq, Int.toNat_of_nonneg (Int.floor_nonneg.mpr hq)]
    norm_num
  · rw [hI]
    simp
  · intro t tr lab htr hlab
    obtain ⟨a, b, c, hpt, hXY⟩ := hspec t tr lab htr hlab
    exact ⟨a, b, c, by simpa using hpt, hXY⟩

theorem lenF_example : lengthFrames (13/6) 60 = 2 := by
  norm_num [lengthFrames, truncQ, floorQ_eq]
  decide

theorem trunc0_example : (truncQ ((0 : ℚ) * ((60 : ℕ) : ℚ))).toNat = 0 := by
  norm_num [truncQ, floorQ_eq]

theorem eval_example_window :
    to_window_by_frame (13/6) 60 1 [[[1, 2, 3]]] [0] 1 [(0, [0, 1])] 0 false =
      some ([[[1]], [[2]]], [0, 1], [0, 1]) := by
  simp only [to_window_by_frame, windowOuter, processTrial, List.lookup, beq_self_eq_true,
    lenF_example, trunc0_example, List.replicate, upsampleCode_60, List.nil_append,
    show List.range 2 = [0, 1] from rfl, windowInner, windowSlice, sliceChan,
    List.map_cons, List.map_nil, List.drop, List.take, assignWindow, mapOption,
    broadcastRow, List.length_cons, List.length_nil, List.get?_cons_zero,
    List.get?_cons_succ]
  norm_num

theorem frame_count_witness :
    [0, 1] = List.range (1 * lengthFrames (13/6) 60) :=
  (frame_count (13/6) 1 [[[1, 2, 3]]] [0] 1 [(0, [0, 1])] 0 false
    [[[1]], [[2]]] [0, 1] [0, 1] (by norm_num) eval_example_window).2.2.2.1

theorem windowInner_reads (trial : List (List ℚ)) (focused : List ℤ) (nch n tbase : ℕ) :
    ∀ (idxs : List ℕ) (out : List (List (List ℚ)) × List ℤ × List ℕ),
      windowInner trial focused nch n tbase idxs = some out →
      ∀ i ∈ idxs, (assignWindow (windowSlice trial i n) nch n).isSome ∧
        (focused.get? i).isSome := by
  intro idxs
  induction idxs with
  | nil =>
    intro out h i hi
    exact absurd hi (List.not_mem_nil i)
  | cons idx rest ih =>
    intro out h i hi
    simp only [windowInner] at h
    cases hw : assignWindow (windowSlice trial idx n) nch n with
    | none => simp only [hw] at h; cases h
    | some w =>
      simp only [hw] at h
      cases hy : focused.get? idx with
      | none => simp only [hy] at h; cases h
      | some y =>
        simp only [hy] at h
        cases hrec : windowInner trial focused nch n tbase rest with
        | none => simp only [hrec] at h; cases h
        | some tri =>
          rcases List.mem_cons.mp hi with h2 | h2
          · subst h2
            exact ⟨by rw [hw]; rfl, by rw [hy]; rfl⟩
          · exact ih tri hrec i h2

theorem windowInner_mem (trial : List (List ℚ)) (focused : List ℤ) (nch n tbase : ℕ) :
    ∀ (idxs : List ℕ) (a : List (List (List ℚ))) (b : List ℤ) (c : List ℕ),
      windowInner trial focused nch n tbase idxs = some (a, b, c) →
      ∀ w ∈ a, ∃ i ∈ idxs, assignWindow (windowSlice trial i n) nch n = some w := by
  intro idxs
  induction idxs with
  | nil =>
    intro a b c h w hw
    simp only [windowInner] at h
    cases h
    exact absurd hw (List.not_mem_nil w)
  | cons idx rest ih =>
    intro a b c h w hw
    simp only [windowInner] at h
    cases hw2 : assignWindow (windowSlice trial idx n) nch n with
    | none => simp only [hw2] at h; cases h
    | some w0 =>
      simp only [hw2] at h
      cases hy : focused.get? idx with
      | none => simp only [hy] at h; cases h
      | some y =>
        simp only [hy] at h
        cases hrec : windowInner trial focused nch n tbase rest with
        | none => simp only [hrec] at h; cases h
        | some tri =>
          obtain ⟨a2, b2, c2⟩ := tri
          simp only [hrec] at h
          cases h
          rcases List.mem_cons.mp hw with h2 | h2
          · subst h2
            exact ⟨idx, List.mem_cons_self idx rest, hw2⟩
          · obtain ⟨i, hi, hass⟩ := ih a2 b2 c2 hrec w h2
            exact ⟨i, List.mem_cons_of_mem idx hi, hass⟩

theorem windowOuter_mem (ws : ℚ) (fps nch n : ℕ) (codes : List (ℤ × List ℤ))
    (offset : ℚ) (focus : Bool) :
    ∀ (data : List (List (List ℚ))) (labs : List ℤ) (t0 : ℕ)
      (X : List (List (List ℚ))) (Y : List ℤ) (I : List ℕ),
      windowOuter ws fps nch n codes offset focus data labs t0 = some (X, Y, I) →
      ∀ w ∈ X, ∃ mat, assignWindow mat nch n = some w := by
  intro data
  induction data with
  | nil =>
    intro labs t0 X Y I h w hw
    simp only [windowOuter] at h
    cases h
    exact absurd hw (List.not_mem_nil w)
  | cons trial rest ih =>
    intro labs t0 X Y I h w hw
    cases labs with
    | nil => simp only [windowOuter] at h; cases h
    | cons lab labs2 =>
      simp only [windowOuter] at h
      cases hpt : processTrial ws fps nch n codes offset focus trial lab t0 with
      | none => simp only [hpt] at h; cases h
      | some tri1 =>
        obtain ⟨a1, b1, c1⟩ := tri1
        simp only [hpt] at h
        cases hrest : windowOuter ws fps nch n codes offset focus rest labs2 (t0 + 1) with
        | none => simp only [hrest] at h; cases h
        | some tri2 =>
          obtain ⟨X2, Y2, I2⟩ := tri2
          simp only [hrest] at h
          cases h
          rcases List.mem_append.mp hw with h2 | h2
          · unfold processTrial at hpt
            cases hlk : codes.lookup lab with
            | none => simp only [hlk] at hpt; cases hpt
            | some code =>
              simp only [hlk] at hpt
              obtain ⟨i, _, hass⟩ := windowInner_mem _ _ _ _ _ _ _ _ _ hpt w h2
              exact ⟨windowSlice trial i n, hass⟩
          · exact ih labs2 (t0 + 1) X2 Y2 I2 hrest w h2

theorem broadcastRow_length {row : List ℚ} {n : ℕ} {r : List ℚ}
    (h : broadcastRow row n = some r) : r.length = n := by
  by_cases h1 : row.length = n
  · rw [broadcastRow, if_pos h1] at h
    cases h
    exact h1
  · by_cases h2 : row.length = 1
    · rw [broadcastRow, if_neg h1, if_pos h2] at h
      cases h
      simp
    · rw [broadcastRow, if_neg h1, if_neg h2] at h
      cases h

theorem assignWindow_shape {mat : List (List ℚ)} {nch n : ℕ} {w : List (List ℚ)}
    (h : assignWindow mat nch n = some w) :
    w.length = nch ∧ ∀ r ∈ w, r.length = n := by
  unfold assignWindow at h
  cases hmo : mapOption (fun r => broadcastRow r n) mat with
  | none => simp only [hmo] at h; cases h
  | some rows =>
    simp only [hmo] at h
    have hrows : ∀ r ∈ rows, r.length = n := by
      intro r hr
      obtain ⟨row, _, hbr⟩ := mapOption_mem hmo r hr
      exact broadcastRow_length hbr
    by_cases h1 : rows.length = nch
    · rw [if_pos h1] at h
      cases h
      exact ⟨h1, hrows⟩
    · by_cases h2 : rows.length = 1
      · rw [if_neg h1, if_pos h2] at h
        cases h
        refine ⟨by simp, ?_⟩
        intro r hr
        have hre : r = rows.headI := List.eq_of_mem_replicate hr
        subst hre
        apply hrows
        cases rows with
        | nil => simp at h2
        | cons r0 rs => simp [List.headI]
      · rw [if_neg h1, if_neg h2] at h
        cases h

/-- C8 (amended): a window slice that runs past the end of the trial's
sample array makes the call raise a numpy broadcast error instead of
returning a shorter window: on every successful call each per-frame slice
assignment broadcast into its preallocated slot, and every returned window
is exactly `n_channels × n_samples_windows`. -/
theorem window_overrun_error (ws : ℚ) (nch : ℕ) (data : List (List (List ℚ)))
    (labels : List ℤ) (n : ℕ) (codes : List (ℤ × List ℤ)) (offset : ℚ) (focus : Bool)
    (X : List (List (List ℚ))) (Y : List ℤ) (I : List ℕ)
    (h : to_window_by_frame ws 60 nch data labels n codes offset focus = some (X, Y, I)) :
    (∀ (t : ℕ) (tr : List (List ℚ)), data.get? t = some tr →
      ∀ i : ℕ, i < lengthFrames ws 60 →
        (assignWindow (windowSlice tr i n) nch n).isSome) ∧
    ∀ w ∈ X, w.length = nch ∧ ∀ r ∈ w, r.length = n := by
  constructor
  · intro t tr htr i hi
    obtain ⟨_, _, _, hlen, hspec⟩ :=
      windowOuter_spec ws 60 nch n codes offset focus data labels 0 X Y I h
    have ht : t < data.length := (List.get?_eq_some.mp htr).1
    have ht2 : t < labels.length := lt_of_lt_of_le ht hlen
    obtain ⟨lab, hlab⟩ : ∃ lab, labels.get? t = some lab :=
      ⟨labels.get ⟨t, ht2⟩, List.get?_eq_get ht2⟩
    obtain ⟨a, b, c, hpt, _⟩ := hspec t tr lab htr hlab
    unfold processTrial at hpt
    cases hlk : codes.lookup lab with
    | none => simp only [hlk] at hpt; cases hpt
    | some code =>
      simp only [hlk] at hpt
      exact (windowInner_reads _ _ _ _ _ _ _ hpt i (List.mem_range.mpr hi)).1
  · intro w hw
    obtain ⟨mat, hmat⟩ :=
      windowOuter_mem ws 60 nch n codes offset focus data labels 0 X Y I h w hw
    exact assignWindow_shape hmat

/-- C8 (counterexample): one 1-channel trial of 3 samples, window length 3,
2 frames per trial: at frame index 1 the slice `trial[:, 1:4]` has only 2 of
the 3 requested samples and the call raises (`none`), instead of returning
a shorter-than-requested window. -/
theorem window_overrun_raises :
    to_window_by_frame (13/6) 60 1 [[[1, 2, 3]]] [0] 3 [(0, [0, 1])] 0 false = none := by
  simp only [to_window_by_frame, windowOuter, processTrial, List.lookup, beq_self_eq_true,
    lenF_example, trunc0_example, List.replicate, upsampleCode_60, List.nil_append,
    show List.range 2 = [0, 1] from rfl, windowInner, windowSlice, sliceChan,
    List.map_cons, List.map_nil, List.drop, List.take, assignWindow, mapOption,
    broadcastRow, List.length_cons, List.length_nil, List.get?_cons_zero,
    List.get?_cons_succ]
  norm_num

theorem window_overrun_error_witness :
    (assignWindow (windowSlice [[(1 : ℚ), 2, 3]] 1 1) 1 1).isSome :=
  (window_overrun_error (13/6) 1 [[[1, 2, 3]]] [0] 1 [(0, [0, 1])] 0 false
    [[[1]], [[2]]] [0, 1] [0, 1] eval_example_window).1 0 [[1, 2, 3]] rfl 1
    (by rw [lenF_example]; omega)

theorem windowInner_isSome (trial : List (List ℚ)) (focused : List ℤ) (nch n tbase : ℕ) :
    ∀ idxs : List ℕ,
      (∀ i ∈ idxs, (assignWindow (windowSlice trial i n) nch n).isSome ∧
        (focused.get? i).isSome) →
      (windowInner trial focused nch n tbase idxs).isSome := by
  intro idxs
  induction idxs with
  | nil =>
    intro _
    rw [windowInner]
    rfl
  | cons idx rest ih =>
    intro h
    obtain ⟨w, hw⟩ := Option.isSome_iff_exists.mp (h idx (List.mem_cons_self idx rest)).1
    obtain ⟨y, hy⟩ := Option.isSome_iff_exists.mp (h idx (List.mem_cons_self idx rest)).2
    obtain ⟨tri, htri⟩ := Option.isSome_iff_exists.mp
      (ih (fun i hi => h i (List.mem_cons_of_mem idx hi)))
    obtain ⟨a, b, c⟩ := tri
    simp only [windowInner, hw, hy, htri]
    rfl

theorem windowOuter_isSome (ws : ℚ) (fps nch n : ℕ) (codes : List (ℤ × List ℤ))
    (offset : ℚ) (focus : Bool) :
    ∀ (data : List (List (List ℚ))) (labs : List ℤ) (t0 : ℕ),
      labs.length = data.length →
      (∀ (t : ℕ) (tr : List (List ℚ)) (lab : ℤ), data.get? t = some tr →
        labs.get? t = some lab → ∀ tnb : ℕ,
          (processTrial ws fps nch n codes offset focus tr lab tnb).isSome) →
      (windowOuter ws fps nch n codes offset focus data labs t0).isSome := by
  intro data
  induction data with
  | nil =>
    intro labs t0 _ _
    simp only [windowOuter]
    rfl
  | cons trial rest ih =>
    intro labs t0 hl h
    cases labs with
    | nil => simp at hl
    | cons lab labs2 =>
      have h0 := h 0 trial lab rfl rfl t0
      obtain ⟨tri, htri⟩ := Option.isSome_iff_exists.mp h0
      obtain ⟨a, b, c⟩ := tri
      have hrest := ih labs2 (t0 + 1) (by simpa using hl)
        (fun t tr lab2 htr hlab tnb =>
          h (t + 1) tr lab2 (by simpa using htr) (by simpa using hlab) tnb)
      obtain ⟨tri2, htri2⟩ := Option.isSome_iff_exists.mp hrest
      obtain ⟨X2, Y2, I2⟩ := tri2
      simp only [windowOuter, htri, htri2]
      rfl

/-- C10: with in-range labels, available codes and broadcastable slices, the
non-focus Frame Windower returns (is `some`) exactly when every used class's
padded up-sampled code covers all `length` frames
(`offset*60` padding plus code length is at least `floor((2.2 - w)*60)`);
a shorter code makes the per-frame label read go out of bounds and the call
fail instead of returning. -/
theorem label_read_bounds (ws : ℚ) (nch n : ℕ) (data : List (List (List ℚ)))
    (labels : List ℤ) (codes : List (ℤ × List ℤ)) (offset : ℚ)
    (hlen : labels.length = data.length)
    (hcodes : ∀ (t : ℕ) (lab : ℤ), labels.get? t = some lab →
      (List.lookup lab codes).isSome)
    (hslice : ∀ (t : ℕ) (tr : List (List ℚ)), data.get? t = some tr →
      ∀ i : ℕ, i < lengthFrames ws 60 →
        (assignWindow (windowSlice tr i n) nch n).isSome) :
    (to_window_by_frame ws 60 nch data labels n codes offset false).isSome ↔
      ∀ (t : ℕ) (lab : ℤ) (c : List ℤ), labels.get? t = some lab →
        List.lookup lab codes = some c →
        lengthFrames ws 60 ≤ (truncQ (offset * 60)).toNat + c.length := by
  have hC : ((60 : ℕ) : ℚ) = (60 : ℚ) := by norm_num
  constructor
  · intro hsome t lab c hlab hlk
    obtain ⟨out, hout⟩ := Option.isSome_iff_exists.mp hsome
    obtain ⟨X, Y, I⟩ := out
    obtain ⟨_, _, _, _, hspec⟩ :=
      windowOuter_spec ws 60 nch n codes offset false data labels 0 X Y I hout
    have ht : t < data.length := by
      rw [← hlen]
      exact (List.get?_eq_some.mp hlab).1
    obtain ⟨tr, htr⟩ : ∃ tr, data.get? t = some tr :=
      ⟨data.get ⟨t, ht⟩, List.get?_eq_get ht⟩
    obtain ⟨a, b, cc, hpt, _⟩ := hspec t tr lab htr hlab
    unfold processTrial at hpt
    simp only [hlk, Bool.false_eq_true, if_false] at hpt
    by_contra hno
    push_neg at hno
    have hpadeq : (truncQ (offset * ((60 : ℕ) : ℚ))).toNat =
        (truncQ (offset * 60)).toNat := by rw [hC]
    have hi0 : (truncQ (offset * 60)).toNat + c.length < lengthFrames ws 60 := hno
    have hread := (windowInner_reads _ _ _ _ _ _ _ hpt
      ((truncQ (offset * 60)).toNat + c.length) (List.mem_range.mpr hi0)).2
    have hlen2 : (List.replicate (truncQ (offset * ((60 : ℕ) : ℚ))).toNat (0 : ℤ) ++
        upsampleCode c 60).length = (truncQ (offset * 60)).toNat + c.length := by
      rw [List.length_append, List.length_replicate, upsampleCode_60, hpadeq]
    rw [List.get?_eq_none.mpr (le_of_eq hlen2)] at hread
    simp at hread
  · intro hbound
    rw [to_window_by_frame]
    apply windowOuter_isSome ws 60 nch n codes offset false data labels 0 hlen
    intro t tr lab htr hlab tnb
    obtain ⟨c, hlk⟩ := Option.isSome_iff_exists.mp (hcodes t lab hlab)
    have hb := hbound t lab c hlab hlk
    unfold processTrial
    simp only [hlk, Bool.false_eq_true, if_false]
    apply windowInner_isSome
    intro i hi
    have hi2 : i < lengthFrames ws 60 := List.mem_range.mp hi
    refine ⟨hslice t tr htr i hi2, ?_⟩
    have hplen : (List.replicate (truncQ (offset * ((60 : ℕ) : ℚ))).toNat (0 : ℤ) ++
        upsampleCode c 60).length = (truncQ (offset * 60)).toNat + c.length := by
      rw [List.length_append, List.length_replicate, upsampleCode_60, hC]
    rw [Option.isSome_iff_exists]
    exact ⟨_, List.get?_eq_get (by rw [hplen]; exact lt_of_lt_of_le hi2 hb)⟩

theorem label_read_bounds_witness :
    lengthFrames (13/6) 60 ≤ (truncQ ((0 : ℚ) * 60)).toNat + 2 := by
  refine (label_read_bounds (13/6) 1 1 [[[1, 2, 3]]] [0] [(0, [0, 1])] 0 rfl ?_ ?_).mp
    ?_ 0 0 [0, 1] rfl rfl
  · intro t lab h
    cases t with
    | zero =>
      injection h with h2
      subst h2
      rfl
    | succ t2 => simp [List.get?] at h
  · intro t tr h i hi
    cases t with
    | zero =>
      injection h with h2
      subst h2
      rw [lenF_example] at hi
      interval_cases i <;> rfl
    | succ t2 => simp [List.get?] at h
  · rw [eval_example_window]
    rfl

end Castillos2023
